import Mathlib

/-!
Verification of `mgit.py` (multi-git repository manager).

This file shallowly embeds the core of `mgit.py`: the fuzzy subsequence
matcher `MGit._fuzzy_match`, the selector resolution `MGit.get_target_repos`,
the highlight renderer `MGit._highlight_text`, the per-repository status
summary `MGit._get_repo_status_summary`, the output traces of
`MGit.run_concurrent` and `MGit.show_summary`, and an interleaving model of
the lock-protected printing in `MGit._run_single_repo`.

Python strings are modelled as Lean `String` / `List Char` (one element per
code point, matching Python's `len`/indexing); `str.lower` is modelled
character-wise by `Char.toLower`; Python sets of ints as `Finset Nat`;
Python dicts as association lists in insertion order; exceptions as
`Except`/`Option`; the external `subprocess.run` boundary as an oracle
function (`GitEnv`).
-/

namespace MGitVerify

/-! ## String helpers (Python built-ins used by the source) -/

/-- Python `str.lower()`, modelled character-wise (`text.lower()` in
`_fuzzy_match`). -/
def lowerStr (s : List Char) : List Char := s.map Char.toLower

/-- Index of the first occurrence of `c` in `l` (`str.find` with the search
anchored at the head of the list). -/
def findFirst (c : Char) : List Char → Option Nat
  | [] => none
  | d :: rest => if d = c then some 0 else (findFirst c rest).map (· + 1)

/-- Python `text.find(char, start)`: index of the first occurrence of `c` in
`t` at position `start` or later, `none` when absent (Python returns `-1`). -/
def strFind (t : List Char) (c : Char) (start : Nat) : Option Nat :=
  (findFirst c (t.drop start)).map (start + ·)

/-- Python `os.path.basename`: the part of the path after the last slash. -/
def basename (p : String) : String :=
  String.mk ((p.toList.reverse.takeWhile (· ≠ '/')).reverse)

/-- Numeric value of a list of ASCII digit characters. -/
def digitsToNat (cs : List Char) : Nat :=
  cs.foldl (fun acc c => acc * 10 + (c.toNat - '0'.toNat)) 0

/-- Python `int(key)` as used on stripped selector tokens: an optional sign
followed by one or more ASCII digits parses; anything else raises
`ValueError`, modelled as `none`.  (Unicode digit characters and `_` digit
separators, which CPython also accepts, are not modelled.) -/
def pyInt (s : String) : Option Int :=
  match s.toList with
  | [] => none
  | '-' :: rest =>
    if rest ≠ [] ∧ rest.all (·.isDigit) then some (-(digitsToNat rest : Int)) else none
  | '+' :: rest =>
    if rest ≠ [] ∧ rest.all (·.isDigit) then some ((digitsToNat rest : Int)) else none
  | cs => if cs.all (·.isDigit) then some ((digitsToNat cs : Int)) else none

/-- Python `str.isdigit()` (restricted to ASCII digits): non-empty and all
characters are digits. -/
def isdigitStr (s : String) : Bool :=
  !s.isEmpty && s.toList.all (·.isDigit)

/-- Splitting a character list at every separator character, keeping empty
segments (the semantics of Python `str.split(sep)` for a one-character
separator, used with `,`; also the underlying worker for whitespace
splitting). -/
def splitOnPred (p : Char → Bool) : List Char → List (List Char)
  | [] => [[]]
  | c :: rest =>
    let r := splitOnPred p rest
    if p c then [] :: r
    else
      match r with
      | [] => [[c]]
      | t :: ts => (c :: t) :: ts

/-- Python `selector.split(',')`. -/
def pySplitComma (s : String) : List String :=
  (splitOnPred (fun c => c = ',') s.toList).map String.mk

/-- Python `str.split()` with no separator: split on whitespace runs and
drop empty segments. -/
def pySplitWs (s : String) : List String :=
  ((splitOnPred Char.isWhitespace s.toList).filter (fun t => t ≠ [])).map String.mk

/-- Python `str.strip()`: remove leading and trailing whitespace. -/
def pyStrip (s : String) : String :=
  String.mk (((s.toList.dropWhile Char.isWhitespace).reverse.dropWhile Char.isWhitespace).reverse)

/-! ## Fuzzy matcher (`MGit._fuzzy_match`) -/

/-- The `for char in query` loop of `_fuzzy_match`, over the already
lowercased text `t`: `tStart` is the search cursor, and the recorded match
indices are returned in the order the query characters were consumed
(Python appends them to `temp_indices`). -/
def fuzzyAux (t : List Char) : List Char → Nat → Option (List Nat)
  | [], _ => some []
  | c :: q, tStart =>
    match strFind t c tStart with
    | none => none
    | some i => (fuzzyAux t q (i + 1)).map (i :: ·)

/-- The ordered list of indices recorded by `_fuzzy_match(query, text)`
(`temp_indices` on success, `none` on failure). -/
def fuzzyMatchList (query text : List Char) : Option (List Nat) :=
  fuzzyAux (lowerStr text) (lowerStr query) 0

/-- `MGit._fuzzy_match(query, text)`: the returned pair
`(是否匹配, 匹配字符的索引集合)`, i.e. `(False, set())` on failure and
`(True, set(temp_indices))` on success. -/
def fuzzyMatch (query text : List Char) : Bool × Finset Nat :=
  match fuzzyMatchList query text with
  | none => (false, ∅)
  | some l => (true, l.toFinset)

/-- String-level wrapper for `_fuzzy_match` (the source works on `str`). -/
def fuzzyMatchS (query text : String) : Bool × Finset Nat :=
  fuzzyMatch query.toList text.toList

/-! ### Specification-side predicates for the matcher (claim C1's words) -/

/-- Position `i` is the first occurrence of character `c` in `t` at or after
position `p` (this is the claim's "first occurrence in T at or after the
previous match index + 1"). -/
def FirstOccFrom (t : List Char) (c : Char) (p i : Nat) : Prop :=
  p ≤ i ∧ t.get? i = some c ∧ ∀ j, p ≤ j → j < i → t.get? j ≠ some c

/-- The positions `l` are the greedy leftmost choices for query `q` in text
`t` starting the search at cursor `p`: each query character is matched at
the first occurrence at or after the previous match index + 1. -/
inductive GreedyChoices (t : List Char) : List Char → Nat → List Nat → Prop
  | nil (p : Nat) : GreedyChoices t [] p []
  | cons (c : Char) (q : List Char) (p i : Nat) (l : List Nat) :
      FirstOccFrom t c p i → GreedyChoices t q (i + 1) l →
      GreedyChoices t (c :: q) p (i :: l)

/-! ### Lemmas about `findFirst` and `strFind` -/

theorem findFirst_eq_none {c : Char} {l : List Char} : findFirst c l = none ↔ c ∉ l := by
  induction l with
  | nil => simp [findFirst]
  | cons d rest ih =>
    rw [findFirst]
    by_cases hd : d = c
    · simp [hd]
    · rw [if_neg hd, Option.map_eq_none', ih, List.mem_cons]
      have hcd : ¬ c = d := fun h => hd h.symm
      simp [hcd]

theorem findFirst_eq_some {c : Char} {l : List Char} {i : Nat}
    (h : findFirst c l = some i) :
    l.get? i = some c ∧ ∀ j, j < i → l.get? j ≠ some c := by
  induction l generalizing i with
  | nil => simp [findFirst] at h
  | cons d rest ih =>
    rw [findFirst] at h
    by_cases hd : d = c
    · rw [if_pos hd] at h
      injection h with h'
      subst h'
      refine ⟨by simp [hd], ?_⟩
      intro j hj
      exact absurd hj (Nat.not_lt_zero j)
    · rw [if_neg hd] at h
      rcases Option.map_eq_some'.mp h with ⟨i', hi', rfl⟩
      obtain ⟨h1, h2⟩ := ih hi'
      refine ⟨by simpa using h1, ?_⟩
      intro j hj
      cases j with
      | zero => simp [hd]
      | succ j' => simpa using h2 j' (by omega)

theorem findFirst_isSome_of_mem {c : Char} {l : List Char} (h : c ∈ l) :
    ∃ i, findFirst c l = some i := by
  cases hf : findFirst c l with
  | none => exact absurd h (findFirst_eq_none.mp hf)
  | some i => exact ⟨i, rfl⟩

theorem strFind_eq_some {t : List Char} {c : Char} {start i : Nat}
    (h : strFind t c start = some i) :
    start ≤ i ∧ t.get? i = some c ∧ ∀ j, start ≤ j → j < i → t.get? j ≠ some c := by
  rcases Option.map_eq_some'.mp h with ⟨k, hk, rfl⟩
  obtain ⟨h1, h2⟩ := findFirst_eq_some hk
  rw [List.get?_drop] at h1
  refine ⟨Nat.le_add_right _ _, h1, ?_⟩
  intro j hj1 hj2
  have hj' := h2 (j - start) (by omega)
  rw [List.get?_drop, show start + (j - start) = j by omega] at hj'
  exact hj'

theorem strFind_eq_none {t : List Char} {c : Char} {start : Nat}
    (h : strFind t c start = none) : ∀ j, start ≤ j → t.get? j ≠ some c := by
  intro j hj hget
  rw [strFind, Option.map_eq_none'] at h
  have hmem : c ∈ t.drop start := by
    rw [List.mem_iff_get?]
    refine ⟨j - start, ?_⟩
    rw [List.get?_drop, show start + (j - start) = j by omega]
    exact hget
  exact (findFirst_eq_none.mp h) hmem

theorem strFind_isSome_of_get? {t : List Char} {c : Char} {start j : Nat}
    (hj : start ≤ j) (hget : t.get? j = some c) :
    ∃ i, strFind t c start = some i ∧ i ≤ j := by
  cases hf : strFind t c start with
  | none => exact absurd hget (strFind_eq_none hf j hj)
  | some i =>
    obtain ⟨h1, h2, h3⟩ := strFind_eq_some hf
    by_cases hij : i ≤ j
    · exact ⟨i, rfl, hij⟩
    · exact absurd hget (h3 j hj (by omega))

/-! ### The matcher computes exactly the greedy leftmost choices -/

theorem fuzzyAux_eq_some_iff_greedy {t q : List Char} {start : Nat} {l : List Nat} :
    fuzzyAux t q start = some l ↔ GreedyChoices t q start l := by
  constructor
  · intro h
    induction q generalizing start l with
    | nil =>
      rw [fuzzyAux] at h
      injection h with h'
      subst h'
      exact GreedyChoices.nil start
    | cons c q ih =>
      rw [fuzzyAux] at h
      cases hf : strFind t c start with
      | none => rw [hf] at h; simp at h
      | some i =>
        rw [hf] at h
        rcases Option.map_eq_some'.mp h with ⟨l', hl', rfl⟩
        obtain ⟨h1, h2, h3⟩ := strFind_eq_some hf
        exact GreedyChoices.cons c q start i l' ⟨h1, h2, h3⟩ (ih hl')
  · intro h
    induction h with
    | nil p => rfl
    | cons c q p i l hfirst _ ih =>
      rw [fuzzyAux]
      have hf : strFind t c p = some i := by
        obtain ⟨hp, hget, hmin⟩ := hfirst
        obtain ⟨i', hi', hle⟩ := strFind_isSome_of_get? hp hget
        obtain ⟨h1, h2, _⟩ := strFind_eq_some hi'
        have hii : i' = i := by
          by_contra hne
          exact hmin i' h1 (by omega) h2
        rw [← hii]
        exact hi'
      rw [hf]
      show Option.map (fun x => i :: x) (fuzzyAux t q (i + 1)) = some (i :: l)
      rw [ih]
      rfl

/-! ### Success is equivalent to the subsequence property -/

theorem cons_drop_sublist {c : Char} {l : List Char} {k : Nat}
    (h : l.get? k = some c) : List.Sublist (c :: l.drop (k + 1)) l := by
  induction k generalizing l with
  | zero =>
    cases l with
    | nil => simp at h
    | cons d rest =>
      rw [List.get?_cons_zero] at h
      injection h with h'
      subst h'
      simp only [List.drop_succ_cons, List.drop_zero]
      exact List.Sublist.refl _
  | succ k' ih =>
    cases l with
    | nil => simp at h
    | cons d rest =>
      rw [List.get?_cons_succ] at h
      rw [List.drop_succ_cons]
      exact List.Sublist.cons d (ih h)

theorem cons_sublist_decomp {a : Char} {q r : List Char}
    (h : List.Sublist (a :: q) r) : ∃ n, r.get? n = some a ∧ List.Sublist q (r.drop (n + 1)) := by
  induction r with
  | nil => simp at h
  | cons d rest ih =>
    cases h with
    | cons _ h' =>
      obtain ⟨n, h1, h2⟩ := ih h'
      exact ⟨n + 1, by simpa using h1, by simpa [List.drop_succ_cons] using h2⟩
    | cons₂ _ h' =>
      exact ⟨0, by simp, by simpa using h'⟩

theorem fuzzyAux_isSome_iff {t q : List Char} {start : Nat} :
    (fuzzyAux t q start).isSome ↔ List.Sublist q (t.drop start) := by
  induction q generalizing start with
  | nil => simp [fuzzyAux, List.nil_sublist]
  | cons c q ih =>
    constructor
    · intro h
      rw [fuzzyAux] at h
      cases hf : strFind t c start with
      | none => rw [hf] at h; simp at h
      | some i =>
        rw [hf] at h
        change (Option.map (fun x => i :: x) (fuzzyAux t q (i + 1))).isSome = true at h
        have hsub : List.Sublist q (t.drop (i + 1)) := by
          apply ih.mp
          cases hfa : fuzzyAux t q (i + 1) with
          | none => rw [hfa] at h; simp at h
          | some l' => simp [hfa]
        obtain ⟨h1, h2, _⟩ := strFind_eq_some hf
        have hget : (t.drop start).get? (i - start) = some c := by
          rw [List.get?_drop, show start + (i - start) = i by omega]
          exact h2
        have hkey := cons_drop_sublist hget
        rw [List.drop_drop, show start + (i - start + 1) = i + 1 by omega] at hkey
        exact (List.Sublist.cons₂ c hsub).trans hkey
    · intro h
      obtain ⟨n, h1, h2⟩ := cons_sublist_decomp h
      have hget : t.get? (start + n) = some c := by rwa [List.get?_drop] at h1
      obtain ⟨i, hf, hle⟩ := strFind_isSome_of_get? (Nat.le_add_right start n) hget
      rw [fuzzyAux, hf]
      have h2' : List.Sublist q (t.drop (start + n + 1)) := by
        rwa [List.drop_drop, show start + (n + 1) = start + n + 1 by omega] at h2
      have hdd : List.Sublist (t.drop (start + n + 1)) (t.drop (i + 1)) := by
        rw [show start + n + 1 = (i + 1) + (start + n - i) by omega, ← List.drop_drop]
        exact List.drop_sublist _ _
      have hq := ih.mpr (h2'.trans hdd)
      cases hfa : fuzzyAux t q (i + 1) with
      | none => rw [hfa] at hq; simp at hq
      | some l' =>
        change (Option.map (fun x => i :: x) (fuzzyAux t q (i + 1))).isSome = true
        rw [hfa]
        rfl

theorem greedyChoices_props {t q : List Char} {p : Nat} {l : List Nat}
    (h : GreedyChoices t q p l) :
    l.length = q.length ∧ (∀ i ∈ l, p ≤ i ∧ i < t.length) ∧ l.Chain' (· < ·) := by
  induction h with
  | nil p => simp
  | cons c q p i l hfirst hg ih =>
    obtain ⟨ih1, ih2, ih3⟩ := ih
    obtain ⟨hp, hget, _⟩ := hfirst
    have hit : i < t.length := by
      rcases List.get?_eq_some.mp hget with ⟨h', _⟩
      exact h'
    refine ⟨by simp [ih1], ?_, ?_⟩
    · intro j hj
      rcases List.mem_cons.mp hj with rfl | hj'
      · exact ⟨hp, hit⟩
      · have hj2 := ih2 j hj'
        exact ⟨by omega, hj2.2⟩
    · rw [List.chain'_cons']
      refine ⟨?_, ih3⟩
      intro y hy
      have hyl : y ∈ l := List.mem_of_mem_head? hy
      have hy2 := ih2 y hyl
      omega

/-- C1: `_fuzzy_match(Q, T)` succeeds iff Q is a case-insensitive subsequence of
T (the lowercased query is a sublist of the lowercased text); on success the
recorded positions are exactly `len(Q)` in number, strictly increasing in the
order the query characters are consumed, and are the greedy leftmost choices
(each query character is matched at the first occurrence in T at or after the
previous match index + 1, starting from cursor 0); on failure the result is
`(False, set())`. -/
theorem fuzzy_match_correct (q t : List Char) :
    ((fuzzyMatch q t).1 = true ↔ List.Sublist (lowerStr q) (lowerStr t))
    ∧ (fuzzyMatchList q t = none → fuzzyMatch q t = (false, ∅))
    ∧ (∀ l, fuzzyMatchList q t = some l →
        fuzzyMatch q t = (true, l.toFinset)
        ∧ l.length = q.length
        ∧ (fuzzyMatch q t).2.card = q.length
        ∧ List.Chain' (· < ·) l
        ∧ GreedyChoices (lowerStr t) (lowerStr q) 0 l) := by
  refine ⟨?_, ?_, ?_⟩
  · have hiff := @fuzzyAux_isSome_iff (lowerStr t) (lowerStr q) 0
    rw [List.drop_zero] at hiff
    rw [← hiff]
    unfold fuzzyMatch fuzzyMatchList
    cases fuzzyAux (lowerStr t) (lowerStr q) 0 with
    | none => simp
    | some l => simp
  · intro hnone
    unfold fuzzyMatch
    rw [hnone]
  · intro l hsome
    have hg : GreedyChoices (lowerStr t) (lowerStr q) 0 l :=
      fuzzyAux_eq_some_iff_greedy.mp hsome
    obtain ⟨hlen, _, hchain⟩ := greedyChoices_props hg
    have hlen' : l.length = q.length := by
      rw [hlen]
      simp [lowerStr]
    have hpair : l.Pairwise (· < ·) := List.chain'_iff_pairwise.mp hchain
    have hnd : l.Nodup := hpair.nodup
    have hfm : fuzzyMatch q t = (true, l.toFinset) := by
      unfold fuzzyMatch
      rw [hsome]
    refine ⟨hfm, hlen', ?_, hchain, hg⟩
    rw [hfm]
    simpa [List.toFinset_card_of_nodup hnd] using hlen'

/-- Witness for C1 at the spec's own example: the query `"re1"` against
`"repo1"` succeeds with greedy leftmost positions `[0, 1, 4]`. -/
theorem fuzzy_match_correct_witness :
    fuzzyMatch "re1".toList "repo1".toList = (true, [0, 1, 4].toFinset)
    ∧ GreedyChoices (lowerStr "repo1".toList) (lowerStr "re1".toList) 0 [0, 1, 4] :=
  have h := (fuzzy_match_correct "re1".toList "repo1".toList).2.2 [0, 1, 4] (by decide)
  ⟨h.1, h.2.2.2.2⟩

/-- C9: the fuzzy matcher applied to the empty query returns `(True, set())`
for every candidate string: the loop body never runs, so the match trivially
succeeds with no recorded indices. -/
theorem fuzzy_match_empty_query (t : List Char) : fuzzyMatch [] t = (true, ∅) := rfl

/-! ## Selector resolution (`MGit.get_target_repos`)

The Python dict `selected_map` is modelled as an association list in
insertion order (CPython dicts preserve insertion order, which matters for
`show_summary`'s row order).  The method reads `self.repos` and prints
warnings but mutates nothing; we thread the object state and an effect list
through every step so that the frame claim (C8) is a statement about the
embedding rather than an assumption of it. -/

/-- The resolved target set: `{ repo_path: matched_indices_set }` in dict
insertion order. -/
abbrev TargetMap := List (String × Finset Nat)

/-- The observable state of the `MGit` object (`self.repos`). -/
structure MGitState where
  repos : List String
deriving DecidableEq

/-- Side effects a method can perform besides returning a value. -/
inductive Effect
  | printLine (s : String)
  | saveConfig
deriving DecidableEq

/-- Python `if repo not in selected_map: selected_map[repo] = set()`:
insert the key with an empty set only when absent. -/
def dictInsertEmpty (m : TargetMap) (k : String) : TargetMap :=
  if m.any (fun kv => kv.1 = k) then m
  else m ++ [(k, ∅)]

/-- Python `if repo not in selected_map: selected_map[repo] = set()` followed
by `selected_map[repo].update(indices)`: union `u` into the key's set,
inserting the key first when absent. -/
def dictUpdate (m : TargetMap) (k : String) (u : Finset Nat) : TargetMap :=
  if m.any (fun kv => kv.1 = k) then
    m.map (fun kv => if kv.1 = k then (kv.1, kv.2 ∪ u) else kv)
  else m ++ [(k, u)]

/-- Dict lookup: the value stored for key `k`, if present. -/
def lookupTM (m : TargetMap) (k : String) : Option (Finset Nat) :=
  (m.find? (fun kv => kv.1 = k)).map (fun kv => kv.2)

/-- The `for repo in self.repos` loop of the fuzzy branch: `acc` is
`(selected_map, match_found)`; each fuzzy-matching repository is merged into
the map and sets `match_found` to true. -/
def fuzzyScanAux (key : String) (repos : List String) (acc : TargetMap × Bool) :
    TargetMap × Bool :=
  repos.foldl
    (fun acc repo =>
      let res := fuzzyMatchS key (basename repo)
      if res.1 then (dictUpdate acc.1 repo res.2, true) else acc)
    acc

/-- The fuzzy-matching arm of one `for key in keys` iteration: scan every
repository name with `_fuzzy_match`, then print a warning when nothing
matched and the token is not all digits
(`if not match_found and not key.isdigit()`). -/
def fuzzyTokenStep (key : String) (acc : TargetMap × List Effect × MGitState) :
    TargetMap × List Effect × MGitState :=
  let scanned := fuzzyScanAux key acc.2.2.repos (acc.1, false)
  if scanned.2 = false ∧ isdigitStr key = false then
    (scanned.1, acc.2.1 ++ [Effect.printLine ("警告: 未找到匹配 '" ++ key ++ "' 的仓库")], acc.2.2)
  else (scanned.1, acc.2.1, acc.2.2)

/-- One iteration of the `for key in keys` loop of `get_target_repos`:
`acc = (selected_map, emitted effects, object state)`.  A token that parses
as an in-range integer index adds that repository with an (at least) empty
highlight set and moves on (`continue`); any other non-empty token —
including an integer that parses but is out of range, for which the `if`
guard fails without `continue` — falls through to the fuzzy-matching arm. -/
def processKey (acc : TargetMap × List Effect × MGitState) (rawKey : String) :
    TargetMap × List Effect × MGitState :=
  let key := pyStrip rawKey
  if key = "" then acc
  else
    match pyInt key with
    | some idx =>
      if 0 ≤ idx ∧ idx < (acc.2.2.repos.length : Int) then
        (dictInsertEmpty acc.1 (acc.2.2.repos.getD idx.toNat ""), acc.2.1, acc.2.2)
      else fuzzyTokenStep key acc
    | none => fuzzyTokenStep key acc

/-- `MGit.get_target_repos(selector)`: returns the target map, the emitted
effects (warning prints only), and the object state after the call.  An
empty (falsy) selector returns all repositories with empty highlight sets
without running any query. -/
def getTargetReposS (st : MGitState) (selector : String) :
    TargetMap × List Effect × MGitState :=
  if selector = "" then (st.repos.map (fun repo => (repo, (∅ : Finset Nat))), [], st)
  else (pySplitComma selector).foldl processKey (([] : TargetMap), [], st)

/-! ### The selector is read-only (claim C8) -/

theorem fuzzyTokenStep_state (key : String) (acc : TargetMap × List Effect × MGitState) :
    (fuzzyTokenStep key acc).2.2 = acc.2.2 := by
  unfold fuzzyTokenStep
  dsimp only
  split <;> rfl

theorem processKey_state (acc : TargetMap × List Effect × MGitState) (k : String) :
    (processKey acc k).2.2 = acc.2.2 := by
  unfold processKey
  dsimp only
  split
  · rfl
  · split
    · split
      · rfl
      · exact fuzzyTokenStep_state _ _
    · exact fuzzyTokenStep_state _ _

theorem fuzzyTokenStep_effects (key : String) (acc : TargetMap × List Effect × MGitState) :
    ∃ ws : List String, (fuzzyTokenStep key acc).2.1 = acc.2.1 ++ ws.map Effect.printLine := by
  unfold fuzzyTokenStep
  dsimp only
  split
  · exact ⟨[("警告: 未找到匹配 '" ++ key ++ "' 的仓库")], by simp⟩
  · exact ⟨[], by simp⟩

theorem processKey_effects (acc : TargetMap × List Effect × MGitState) (k : String) :
    ∃ ws : List String, (processKey acc k).2.1 = acc.2.1 ++ ws.map Effect.printLine := by
  unfold processKey
  dsimp only
  split
  · exact ⟨[], by simp⟩
  · split
    · split
      · exact ⟨[], by simp⟩
      · exact fuzzyTokenStep_effects _ _
    · exact fuzzyTokenStep_effects _ _

theorem foldl_processKey_state (keys : List String) (acc : TargetMap × List Effect × MGitState) :
    (keys.foldl processKey acc).2.2 = acc.2.2 := by
  induction keys generalizing acc with
  | nil => rfl
  | cons k ks ih =>
    rw [List.foldl_cons, ih (processKey acc k), processKey_state]

theorem foldl_processKey_effects (keys : List String) (acc : TargetMap × List Effect × MGitState) :
    ∃ ws : List String, (keys.foldl processKey acc).2.1 = acc.2.1 ++ ws.map Effect.printLine := by
  induction keys generalizing acc with
  | nil => exact ⟨[], by simp⟩
  | cons k ks ih =>
    obtain ⟨ws1, h1⟩ := processKey_effects acc k
    obtain ⟨ws2, h2⟩ := ih (processKey acc k)
    refine ⟨ws1 ++ ws2, ?_⟩
    rw [List.foldl_cons, h2, h1]
    simp

/-- C8: selector resolution is read-only on the registry: for every selector
string, `get_target_repos` returns with `self.repos` unmodified (the final
object state is the initial one, so same elements, same order, same length)
and without saving the configuration (the only effects it can emit are
warning prints). -/
theorem get_target_repos_readonly (st : MGitState) (selector : String) :
    (getTargetReposS st selector).2.2 = st
    ∧ (getTargetReposS st selector).2.2.repos = st.repos
    ∧ (getTargetReposS st selector).2.2.repos.length = st.repos.length
    ∧ Effect.saveConfig ∉ (getTargetReposS st selector).2.1 := by
  unfold getTargetReposS
  split
  · exact ⟨rfl, rfl, rfl, by simp⟩
  · refine ⟨foldl_processKey_state _ _, ?_, ?_, ?_⟩
    · rw [foldl_processKey_state]
    · rw [foldl_processKey_state]
    · obtain ⟨ws, hw⟩ :=
        foldl_processKey_effects (pySplitComma selector) (([] : TargetMap), [], st)
      rw [hw]
      simp

/-! ### Empty selector (claim C6) -/

theorem lookupTM_map_empty (repos : List String) (repo : String) (hmem : repo ∈ repos) :
    lookupTM (repos.map (fun r => (r, (∅ : Finset Nat)))) repo = some ∅ := by
  induction repos with
  | nil => simp at hmem
  | cons p ps ih =>
    rcases List.mem_cons.mp hmem with rfl | h'
    · unfold lookupTM
      rw [List.map_cons, List.find?_cons_of_pos _ (by simp)]
      rfl
    · by_cases hp : p = repo
      · subst hp
        unfold lookupTM
        rw [List.map_cons, List.find?_cons_of_pos _ (by simp)]
        rfl
      · unfold lookupTM at ih ⊢
        rw [List.map_cons, List.find?_cons_of_neg _ (by simp [hp])]
        exact ih h'

/-- C6: resolving an empty (falsy) selector string yields a target set
containing exactly every repository of the registry, in registry order, each
mapped to an empty highlight set. -/
theorem empty_selector_all_repos (st : MGitState) :
    (getTargetReposS st "").1 = st.repos.map (fun repo => (repo, (∅ : Finset Nat)))
    ∧ ∀ repo, repo ∈ st.repos → lookupTM (getTargetReposS st "").1 repo = some ∅ := by
  refine ⟨rfl, ?_⟩
  intro repo hmem
  show lookupTM (st.repos.map (fun r => (r, (∅ : Finset Nat)))) repo = some ∅
  exact lookupTM_map_empty st.repos repo hmem

/-- Witness for C6 on a concrete registry. -/
theorem empty_selector_all_repos_witness :
    (getTargetReposS ⟨["/a/x"]⟩ "").1 = [("/a/x", (∅ : Finset Nat))]
    ∧ lookupTM (getTargetReposS ⟨["/a/x"]⟩ "").1 "/a/x" = some ∅ :=
  have h := empty_selector_all_repos ⟨["/a/x"]⟩
  ⟨h.1, h.2 "/a/x" (by simp)⟩

/-! ### Out-of-range integer tokens (claim C2) -/

/-- Counterexample to C2: with registry `["/a/repo5"]` the token `"5"` parses
as the integer 5, which is out of range (the registry has length 1), yet the
repository is added to the target set: the token falls through to fuzzy
matching, where `"5"` matches the name `"repo5"` at index 4.  The claim's
"no repository is added to the target set for it" is false. -/
theorem out_of_range_token_not_ignored_cex :
    (getTargetReposS ⟨["/a/repo5"]⟩ "5").1 = [("/a/repo5", ({4} : Finset Nat))]
    ∧ pyInt "5" = some 5
    ∧ ¬ ((0 : Int) ≤ 5 ∧ (5 : Int) < (MGitState.mk ["/a/repo5"]).repos.length) := by
  refine ⟨by decide, by decide, by decide⟩

/-- C2 amended: an integer-parsing token that is out of range is not silently
ignored; it falls through to the fuzzy-matching arm exactly like a
non-numeric token, adding every repository whose name it fuzzy-matches, and
a warning is printed exactly when no repository matched and the token is not
all digits (so a purely-digits out-of-range token is warning-free, but a
signed one such as "-1" can warn). -/
theorem out_of_range_token_falls_through (acc : TargetMap × List Effect × MGitState)
    (key : String) (idx : Int)
    (htrim : pyStrip key = key) (hne : key ≠ "")
    (hparse : pyInt key = some idx)
    (hrange : ¬ (0 ≤ idx ∧ idx < (acc.2.2.repos.length : Int))) :
    processKey acc key = fuzzyTokenStep key acc
    ∧ (processKey acc key).2.1 =
        acc.2.1 ++
          (if (fuzzyScanAux key acc.2.2.repos (acc.1, false)).2 = false
              ∧ isdigitStr key = false
           then [Effect.printLine ("警告: 未找到匹配 '" ++ key ++ "' 的仓库")]
           else []) := by
  have h1 : processKey acc key = fuzzyTokenStep key acc := by
    unfold processKey
    dsimp only
    rw [htrim, if_neg hne, hparse]
    show (if 0 ≤ idx ∧ idx < (acc.2.2.repos.length : Int) then
        (dictInsertEmpty acc.1 (acc.2.2.repos.getD idx.toNat ""), acc.2.1, acc.2.2)
      else fuzzyTokenStep key acc) = fuzzyTokenStep key acc
    rw [if_neg hrange]
  refine ⟨h1, ?_⟩
  rw [h1]
  unfold fuzzyTokenStep
  dsimp only
  split
  · rfl
  · simp

/-- Witness for the amended C2 on the counterexample input. -/
theorem out_of_range_token_falls_through_witness :
    processKey (([] : TargetMap), ([] : List Effect), MGitState.mk ["/a/repo5"]) "5"
      = fuzzyTokenStep "5" (([] : TargetMap), ([] : List Effect), MGitState.mk ["/a/repo5"])
    ∧ (processKey (([] : TargetMap), ([] : List Effect), MGitState.mk ["/a/repo5"]) "5").2.1
      = [] ++
          (if (fuzzyScanAux "5" (MGitState.mk ["/a/repo5"]).repos (([] : TargetMap), false)).2 = false
              ∧ isdigitStr "5" = false
           then [Effect.printLine ("警告: 未找到匹配 '" ++ "5" ++ "' 的仓库")]
           else []) :=
  out_of_range_token_falls_through (([] : TargetMap), ([] : List Effect), MGitState.mk ["/a/repo5"])
    "5" 5 (by decide) (by decide) (by decide) (by decide)

/-! ### Highlight accumulation and bounds (claim C4) -/

/-- Merge of two optional highlight sets: absent-absent stays absent, and a
present set accumulates by union (never overwrite). -/
def combineOpt : Option (Finset Nat) → Option (Finset Nat) → Option (Finset Nat)
  | a, none => a
  | none, some u => some u
  | some s, some u => some (s ∪ u)

theorem combineOpt_none_right (a : Option (Finset Nat)) : combineOpt a none = a := by
  cases a <;> rfl

theorem combineOpt_none_left (b : Option (Finset Nat)) : combineOpt none b = b := by
  cases b <;> rfl

theorem lookupTM_cons (kv : String × Finset Nat) (m : TargetMap) (r : String) :
    lookupTM (kv :: m) r = if kv.1 = r then some kv.2 else lookupTM m r := by
  unfold lookupTM
  by_cases h : kv.1 = r
  · rw [List.find?_cons_of_pos _ (by simp [h]), if_pos h]
    rfl
  · rw [List.find?_cons_of_neg _ (by simp [h]), if_neg h]

theorem lookupTM_append (m m' : TargetMap) (r : String) :
    lookupTM (m ++ m') r = (lookupTM m r).or (lookupTM m' r) := by
  unfold lookupTM
  rw [List.find?_append]
  cases List.find? (fun kv => kv.1 = r) m <;> simp

theorem lookupTM_isSome_iff_any (m : TargetMap) (k : String) :
    (lookupTM m k).isSome = m.any (fun kv => kv.1 = k) := by
  induction m with
  | nil => rfl
  | cons kv rest ih =>
    rw [lookupTM_cons, List.any_cons]
    by_cases h : kv.1 = k
    · simp [h]
    · rw [if_neg h]
      have hd : (decide (kv.1 = k)) = false := by simp [h]
      rw [hd, Bool.false_or]
      exact ih

theorem lookupTM_dictInsertEmpty (m : TargetMap) (k r : String) :
    lookupTM (dictInsertEmpty m k) r =
      combineOpt (lookupTM m r) (if k = r then some ∅ else none) := by
  unfold dictInsertEmpty
  by_cases hany : m.any (fun kv => kv.1 = k) = true
  · rw [if_pos hany]
    by_cases hkr : k = r
    · subst hkr
      have hsome : (lookupTM m k).isSome = true := by rw [lookupTM_isSome_iff_any]; exact hany
      obtain ⟨s, hs⟩ := Option.isSome_iff_exists.mp hsome
      rw [hs, if_pos rfl]
      show some s = some (s ∪ ∅)
      rw [Finset.union_empty]
    · rw [if_neg hkr, combineOpt_none_right]
  · rw [if_neg hany, lookupTM_append]
    by_cases hkr : k = r
    · subst hkr
      have hnone : lookupTM m k = none := by
        cases ho : lookupTM m k with
        | none => rfl
        | some s =>
          exfalso
          apply hany
          rw [← lookupTM_isSome_iff_any, ho]
          rfl
      rw [hnone, if_pos rfl, combineOpt_none_left]
      rw [lookupTM_cons]
      simp
    · rw [if_neg hkr, combineOpt_none_right]
      rw [lookupTM_cons]
      simp only [hkr, if_false]
      cases lookupTM m r <;> rfl

theorem lookupTM_updateMap (m : TargetMap) (k : String) (u : Finset Nat) (r : String) :
    lookupTM (m.map (fun kv => if kv.1 = k then (kv.1, kv.2 ∪ u) else kv)) r =
      if k = r then (lookupTM m r).map (fun s => s ∪ u) else lookupTM m r := by
  induction m with
  | nil => by_cases hkr : k = r <;> simp [lookupTM, hkr]
  | cons kv rest ih =>
    rw [List.map_cons, lookupTM_cons, lookupTM_cons]
    by_cases hk : kv.1 = k
    · by_cases hkr : k = r <;> simp [hk, hkr, ih]
    · by_cases hr : kv.1 = r
      · have hkr : ¬ k = r := fun h => hk (by rw [h, ← hr])
        have hrk : ¬ r = k := fun h => hkr h.symm
        simp [hk, hr, hkr, hrk]
      · by_cases hkr : k = r
        · subst hkr
          simp [hk, hr, ih]
        · simp [hk, hr, hkr, ih]

theorem lookupTM_dictUpdate (m : TargetMap) (k : String) (u : Finset Nat) (r : String) :
    lookupTM (dictUpdate m k u) r =
      combineOpt (lookupTM m r) (if k = r then some u else none) := by
  unfold dictUpdate
  by_cases hany : m.any (fun kv => kv.1 = k) = true
  · rw [if_pos hany, lookupTM_updateMap]
    by_cases hkr : k = r
    · subst hkr
      have hsome : (lookupTM m k).isSome = true := by rw [lookupTM_isSome_iff_any]; exact hany
      obtain ⟨s, hs⟩ := Option.isSome_iff_exists.mp hsome
      rw [hs, if_pos rfl, if_pos rfl]
      rfl
    · rw [if_neg hkr, if_neg hkr, combineOpt_none_right]
  · rw [if_neg hany, lookupTM_append]
    by_cases hkr : k = r
    · subst hkr
      have hnone : lookupTM m k = none := by
        cases ho : lookupTM m k with
        | none => rfl
        | some s =>
          exfalso
          apply hany
          rw [← lookupTM_isSome_iff_any, ho]
          rfl
      rw [hnone, if_pos rfl, combineOpt_none_left]
      rw [lookupTM_cons]
      simp
    · rw [if_neg hkr, combineOpt_none_right]
      rw [lookupTM_cons]
      simp only [hkr, if_false]
      cases lookupTM m r <;> rfl

/-- The highlight positions one selector token contributes to repository
`r`: an in-range integer token contributes the empty set to the repository
at that index and nothing to the others; any other (trimmed, non-empty)
token contributes the fuzzy-match position set to every registered
repository whose basename it matches. -/
def tokenContrib (repos : List String) (rawKey : String) (r : String) : Option (Finset Nat) :=
  let key := pyStrip rawKey
  if key = "" then none
  else
    let fz : Option (Finset Nat) :=
      if r ∈ repos ∧ (fuzzyMatchS key (basename r)).1 = true
      then some (fuzzyMatchS key (basename r)).2
      else none
    match pyInt key with
    | some idx =>
      if 0 ≤ idx ∧ idx < (repos.length : Int) then
        (if repos.getD idx.toNat "" = r then some ∅ else none)
      else fz
    | none => fz

theorem fuzzyScanAux_lookup (key : String) (repos : List String) (hnd : repos.Nodup)
    (m : TargetMap) (b : Bool) (r : String) :
    lookupTM (fuzzyScanAux key repos (m, b)).1 r =
      combineOpt (lookupTM m r)
        (if r ∈ repos ∧ (fuzzyMatchS key (basename r)).1 = true
         then some (fuzzyMatchS key (basename r)).2
         else none)
    ∧ (fuzzyScanAux key repos (m, b)).2
        = (b || repos.any (fun rp => (fuzzyMatchS key (basename rp)).1)) := by
  induction repos generalizing m b with
  | nil =>
    refine ⟨?_, ?_⟩
    · show lookupTM m r = combineOpt (lookupTM m r)
        (if r ∈ ([] : List String) ∧ (fuzzyMatchS key (basename r)).1 = true
         then some (fuzzyMatchS key (basename r)).2 else none)
      simp [combineOpt_none_right]
    · show b = (b || List.any [] fun rp => (fuzzyMatchS key (basename rp)).1)
      simp
  | cons rp rest ih =>
    have hstep : fuzzyScanAux key (rp :: rest) (m, b) =
        fuzzyScanAux key rest
          (if (fuzzyMatchS key (basename rp)).1 then
            (dictUpdate m rp (fuzzyMatchS key (basename rp)).2, true)
           else (m, b)) := by
      unfold fuzzyScanAux
      rw [List.foldl_cons]
    have hnd' : rest.Nodup := hnd.of_cons
    have hrp : rp ∉ rest := (List.nodup_cons.mp hnd).1
    by_cases hm : (fuzzyMatchS key (basename rp)).1 = true
    · rw [hstep, if_pos hm]
      obtain ⟨ih1, ih2⟩ := ih hnd' (dictUpdate m rp (fuzzyMatchS key (basename rp)).2) true
      constructor
      · rw [ih1, lookupTM_dictUpdate]
        by_cases hreq : rp = r
        · subst hreq
          have hnr : ¬ (rp ∈ rest ∧ (fuzzyMatchS key (basename rp)).1 = true) := by
            intro hc
            exact hrp hc.1
          rw [if_neg hnr, combineOpt_none_right, if_pos rfl,
            if_pos ⟨List.mem_cons_self rp rest, hm⟩]
        · have hiff : (r ∈ rp :: rest ∧ (fuzzyMatchS key (basename r)).1 = true)
              ↔ (r ∈ rest ∧ (fuzzyMatchS key (basename r)).1 = true) := by
            constructor
            · rintro ⟨hmem, hmv⟩
              rcases List.mem_cons.mp hmem with h | h
              · exact absurd h.symm hreq
              · exact ⟨h, hmv⟩
            · rintro ⟨hmem, hmv⟩
              exact ⟨List.mem_cons_of_mem _ hmem, hmv⟩
          rw [if_neg hreq, combineOpt_none_right, if_congr hiff rfl rfl]
      · rw [ih2, List.any_cons]
        simp [hm]
    · rw [hstep, if_neg hm]
      obtain ⟨ih1, ih2⟩ := ih hnd' m b
      constructor
      · rw [ih1]
        by_cases hreq : rp = r
        · subst hreq
          have h1 : ¬ (rp ∈ rest ∧ (fuzzyMatchS key (basename rp)).1 = true) := by
            intro hc
            exact hrp hc.1
          have h2 : ¬ (rp ∈ rp :: rest ∧ (fuzzyMatchS key (basename rp)).1 = true) := by
            intro hc
            exact hm hc.2
          rw [if_neg h1, if_neg h2]
        · have hiff : (r ∈ rp :: rest ∧ (fuzzyMatchS key (basename r)).1 = true)
              ↔ (r ∈ rest ∧ (fuzzyMatchS key (basename r)).1 = true) := by
            constructor
            · rintro ⟨hmem, hmv⟩
              rcases List.mem_cons.mp hmem with h | h
              · exact absurd h.symm hreq
              · exact ⟨h, hmv⟩
            · rintro ⟨hmem, hmv⟩
              exact ⟨List.mem_cons_of_mem _ hmem, hmv⟩
          rw [if_congr hiff rfl rfl]
      · rw [ih2, List.any_cons]
        simp [hm]

theorem fuzzyTokenStep_map (key : String) (acc : TargetMap × List Effect × MGitState) :
    (fuzzyTokenStep key acc).1 = (fuzzyScanAux key acc.2.2.repos (acc.1, false)).1 := by
  unfold fuzzyTokenStep
  dsimp only
  split <;> rfl

theorem processKey_lookup (acc : TargetMap × List Effect × MGitState)
    (hnd : acc.2.2.repos.Nodup) (k r : String) :
    lookupTM (processKey acc k).1 r =
      combineOpt (lookupTM acc.1 r) (tokenContrib acc.2.2.repos k r) := by
  unfold processKey tokenContrib
  dsimp only
  by_cases hkey : pyStrip k = ""
  · rw [if_pos hkey, if_pos hkey, combineOpt_none_right]
  · rw [if_neg hkey, if_neg hkey]
    cases hp : pyInt (pyStrip k) with
    | some idx =>
      show lookupTM (if 0 ≤ idx ∧ idx < (acc.2.2.repos.length : Int) then
            (dictInsertEmpty acc.1 (acc.2.2.repos.getD idx.toNat ""), acc.2.1, acc.2.2)
          else fuzzyTokenStep (pyStrip k) acc).1 r
        = combineOpt (lookupTM acc.1 r)
            (if 0 ≤ idx ∧ idx < (acc.2.2.repos.length : Int) then
              (if acc.2.2.repos.getD idx.toNat "" = r then some ∅ else none)
             else if r ∈ acc.2.2.repos ∧ (fuzzyMatchS (pyStrip k) (basename r)).1 = true
                  then some (fuzzyMatchS (pyStrip k) (basename r)).2 else none)
      by_cases hrange : 0 ≤ idx ∧ idx < (acc.2.2.repos.length : Int)
      · rw [if_pos hrange, if_pos hrange]
        exact lookupTM_dictInsertEmpty acc.1 _ r
      · rw [if_neg hrange, if_neg hrange, fuzzyTokenStep_map]
        exact (fuzzyScanAux_lookup (pyStrip k) acc.2.2.repos hnd acc.1 false r).1
    | none =>
      show lookupTM (fuzzyTokenStep (pyStrip k) acc).1 r
        = combineOpt (lookupTM acc.1 r)
            (if r ∈ acc.2.2.repos ∧ (fuzzyMatchS (pyStrip k) (basename r)).1 = true
             then some (fuzzyMatchS (pyStrip k) (basename r)).2 else none)
      rw [fuzzyTokenStep_map]
      exact (fuzzyScanAux_lookup (pyStrip k) acc.2.2.repos hnd acc.1 false r).1

theorem foldl_processKey_lookup (keys : List String)
    (acc : TargetMap × List Effect × MGitState) (hnd : acc.2.2.repos.Nodup) (r : String) :
    lookupTM (keys.foldl processKey acc).1 r =
      keys.foldl (fun o k => combineOpt o (tokenContrib acc.2.2.repos k r))
        (lookupTM acc.1 r) := by
  induction keys generalizing acc with
  | nil => rfl
  | cons k ks ih =>
    rw [List.foldl_cons, List.foldl_cons]
    have hst : (processKey acc k).2.2 = acc.2.2 := processKey_state acc k
    have ih' := ih (processKey acc k) (by rw [hst]; exact hnd)
    rw [ih', hst, processKey_lookup acc hnd k r]

/-- Union of a list of optional highlight-position sets, absent entries
counting as empty (the accumulated highlight set the claim describes). -/
def unionFoldD (l : List (Option (Finset Nat))) : Finset Nat :=
  l.foldl (fun a x => a ∪ x.getD ∅) ∅

theorem foldl_union_getD (l : List (Option (Finset Nat))) (s : Finset Nat) :
    l.foldl (fun a x => a ∪ x.getD ∅) s = s ∪ unionFoldD l := by
  induction l generalizing s with
  | nil => simp [unionFoldD]
  | cons x xs ih =>
    rw [List.foldl_cons, ih]
    have h2 : unionFoldD (x :: xs) = (∅ ∪ x.getD ∅) ∪ unionFoldD xs := by
      show List.foldl (fun a x => a ∪ x.getD ∅) ∅ (x :: xs) = _
      rw [List.foldl_cons, ih]
    rw [h2, Finset.empty_union, Finset.union_assoc]

theorem unionFoldD_cons (x : Option (Finset Nat)) (xs : List (Option (Finset Nat))) :
    unionFoldD (x :: xs) = x.getD ∅ ∪ unionFoldD xs := by
  show List.foldl (fun a x => a ∪ x.getD ∅) ∅ (x :: xs) = _
  rw [List.foldl_cons, foldl_union_getD, Finset.empty_union]

theorem foldl_combineOpt_some (l : List (Option (Finset Nat))) (s₀ : Finset Nat) :
    l.foldl combineOpt (some s₀) = some (s₀ ∪ unionFoldD l) := by
  induction l generalizing s₀ with
  | nil =>
    rw [List.foldl_nil, show unionFoldD [] = ∅ from rfl, Finset.union_empty]
  | cons x xs ih =>
    rw [List.foldl_cons, unionFoldD_cons]
    cases x with
    | none =>
      rw [show combineOpt (some s₀) none = some s₀ from rfl, ih]
      rw [show (none : Option (Finset Nat)).getD ∅ = ∅ from rfl, Finset.empty_union]
    | some u =>
      rw [show combineOpt (some s₀) (some u) = some (s₀ ∪ u) from rfl, ih]
      rw [show (some u).getD ∅ = u from rfl, Finset.union_assoc]

theorem foldl_combineOpt_none (l : List (Option (Finset Nat))) (s : Finset Nat)
    (h : l.foldl combineOpt none = some s) : s = unionFoldD l := by
  induction l with
  | nil => simp [List.foldl_nil] at h
  | cons x xs ih =>
    rw [List.foldl_cons] at h
    rw [unionFoldD_cons]
    cases x with
    | none =>
      rw [show combineOpt none none = (none : Option (Finset Nat)) from rfl] at h
      rw [ih h, show (none : Option (Finset Nat)).getD ∅ = ∅ from rfl, Finset.empty_union]
    | some u =>
      rw [show combineOpt none (some u) = some u from rfl, foldl_combineOpt_some] at h
      injection h with h'
      rw [← h', show (some u).getD ∅ = u from rfl]

/-! ### Highlight indices are in bounds -/

theorem fuzzyMatch_mem_lt (q t : List Char) (i : Nat) (hi : i ∈ (fuzzyMatch q t).2) :
    i < t.length := by
  unfold fuzzyMatch at hi
  cases hl : fuzzyMatchList q t with
  | none => rw [hl] at hi; simp at hi
  | some l =>
    rw [hl] at hi
    have hg := fuzzyAux_eq_some_iff_greedy.mp hl
    obtain ⟨_, hmemb, _⟩ := greedyChoices_props hg
    have hil : i ∈ l := by simpa using hi
    have hlt := (hmemb i hil).2
    simpa [lowerStr] using hlt

theorem tokenContrib_bound (repos : List String) (k r : String) (s : Finset Nat)
    (h : tokenContrib repos k r = some s) : ∀ i ∈ s, i < (basename r).length := by
  intro i hi
  unfold tokenContrib at h
  dsimp only at h
  have hfz : (if r ∈ repos ∧ (fuzzyMatchS (pyStrip k) (basename r)).1 = true
      then some (fuzzyMatchS (pyStrip k) (basename r)).2 else none) = some s →
      i < (basename r).length := by
    intro hfzeq
    by_cases hc : r ∈ repos ∧ (fuzzyMatchS (pyStrip k) (basename r)).1 = true
    · rw [if_pos hc] at hfzeq
      injection hfzeq with h'
      rw [← h'] at hi
      exact fuzzyMatch_mem_lt _ _ i hi
    · rw [if_neg hc] at hfzeq
      exact absurd hfzeq (by simp)
  by_cases hkey : pyStrip k = ""
  · rw [if_pos hkey] at h
    exact absurd h (by simp)
  · rw [if_neg hkey] at h
    split at h
    · split at h
      · split at h
        · injection h with h'
          rw [← h'] at hi
          simp at hi
        · exact absurd h (by simp)
      · exact hfz h
    · exact hfz h

theorem unionFoldD_bound (l : List (Option (Finset Nat))) (P : Nat → Prop)
    (hb : ∀ x ∈ l, ∀ s, x = some s → ∀ i ∈ s, P i) :
    ∀ i ∈ unionFoldD l, P i := by
  induction l with
  | nil =>
    intro i hi
    simp [show unionFoldD [] = ∅ from rfl] at hi
  | cons x xs ih =>
    intro i hi
    rw [unionFoldD_cons] at hi
    rcases Finset.mem_union.mp hi with h1 | h2
    · cases x with
      | none => simp at h1
      | some u => exact hb (some u) (List.mem_cons_self _ _) u rfl i (by simpa using h1)
    · exact ih (fun y hy => hb y (List.mem_cons_of_mem _ hy)) i h2

/-! ### The built target map has no duplicate keys -/

/-- The target map never holds duplicate repository keys. -/
def keysNodup (m : TargetMap) : Prop := (m.map (fun kv => kv.1)).Nodup

theorem memkey_iff_any (m : TargetMap) (k : String) :
    m.any (fun kv => kv.1 = k) = true ↔ k ∈ m.map (fun kv => kv.1) := by
  rw [List.any_eq_true, List.mem_map]
  constructor
  · rintro ⟨kv, hmemb, hk⟩
    exact ⟨kv, hmemb, by simpa using hk⟩
  · rintro ⟨kv, hmemb, hk⟩
    exact ⟨kv, hmemb, by simpa using hk⟩

theorem keysNodup_dictInsertEmpty (m : TargetMap) (k : String) (h : keysNodup m) :
    keysNodup (dictInsertEmpty m k) := by
  unfold dictInsertEmpty
  split
  · exact h
  · next hany =>
    have hk : k ∉ m.map (fun kv => kv.1) := by
      intro hc
      exact hany ((memkey_iff_any m k).mpr hc)
    unfold keysNodup at h ⊢
    rw [List.map_append, List.nodup_append]
    refine ⟨h, by simp, ?_⟩
    intro a ha hb
    simp at hb
    subst hb
    exact hk ha

theorem keysNodup_dictUpdate (m : TargetMap) (k : String) (u : Finset Nat) (h : keysNodup m) :
    keysNodup (dictUpdate m k u) := by
  unfold dictUpdate
  split
  · unfold keysNodup at h ⊢
    rw [List.map_map]
    have hcomp : ((fun kv => kv.1) ∘ (fun kv => if kv.1 = k then (kv.1, kv.2 ∪ u) else kv)
        : String × Finset Nat → String) = fun kv => kv.1 := by
      funext kv
      by_cases hk : kv.1 = k <;> simp [hk]
    rw [hcomp]
    exact h
  · next hany =>
    have hk : k ∉ m.map (fun kv => kv.1) := by
      intro hc
      exact hany ((memkey_iff_any m k).mpr hc)
    unfold keysNodup at h ⊢
    rw [List.map_append, List.nodup_append]
    refine ⟨h, by simp, ?_⟩
    intro a ha hb
    simp at hb
    subst hb
    exact hk ha

theorem fuzzyScanAux_cons (key rp : String) (rest : List String) (m : TargetMap) (b : Bool) :
    fuzzyScanAux key (rp :: rest) (m, b) =
      fuzzyScanAux key rest
        (if (fuzzyMatchS key (basename rp)).1 then
          (dictUpdate m rp (fuzzyMatchS key (basename rp)).2, true)
         else (m, b)) := by
  unfold fuzzyScanAux
  rw [List.foldl_cons]

theorem keysNodup_fuzzyScanAux (key : String) (repos : List String) (m : TargetMap) (b : Bool)
    (h : keysNodup m) : keysNodup (fuzzyScanAux key repos (m, b)).1 := by
  induction repos generalizing m b with
  | nil => exact h
  | cons rp rest ih =>
    rw [fuzzyScanAux_cons]
    by_cases hm : (fuzzyMatchS key (basename rp)).1 = true
    · rw [if_pos hm]
      exact ih _ true (keysNodup_dictUpdate m rp _ h)
    · rw [if_neg hm]
      exact ih m b h

theorem keysNodup_processKey (acc : TargetMap × List Effect × MGitState) (k : String)
    (h : keysNodup acc.1) : keysNodup (processKey acc k).1 := by
  unfold processKey
  dsimp only
  split
  · exact h
  · split
    · split
      · exact keysNodup_dictInsertEmpty _ _ h
      · rw [fuzzyTokenStep_map]
        exact keysNodup_fuzzyScanAux _ _ _ _ h
    · rw [fuzzyTokenStep_map]
      exact keysNodup_fuzzyScanAux _ _ _ _ h

theorem keysNodup_foldl_processKey (keys : List String)
    (acc : TargetMap × List Effect × MGitState) (h : keysNodup acc.1) :
    keysNodup (keys.foldl processKey acc).1 := by
  induction keys generalizing acc with
  | nil => exact h
  | cons k ks ih =>
    rw [List.foldl_cons]
    exact ih (processKey acc k) (keysNodup_processKey acc k h)

theorem lookupTM_eq_some_of_mem (m : TargetMap) (hnd : keysNodup m) (r : String)
    (s : Finset Nat) (h : (r, s) ∈ m) : lookupTM m r = some s := by
  induction m with
  | nil => simp at h
  | cons kv rest ih =>
    rw [lookupTM_cons]
    have hnd' : keysNodup rest := by
      unfold keysNodup at hnd ⊢
      rw [List.map_cons] at hnd
      exact (List.nodup_cons.mp hnd).2
    rcases List.mem_cons.mp h with heq | hmemb
    · rw [← heq]
      simp
    · have hkeys : kv.1 ∉ rest.map (fun kv => kv.1) := by
        unfold keysNodup at hnd
        rw [List.map_cons] at hnd
        exact (List.nodup_cons.mp hnd).1
      have hne : ¬ kv.1 = r := by
        intro hc
        apply hkeys
        rw [hc]
        exact List.mem_map.mpr ⟨(r, s), hmemb, rfl⟩
      rw [if_neg hne]
      exact ih hnd' hmemb

/-- C4: target-set construction never overwrites a highlight set: every
repository present in the resolved target map carries exactly the union of
the individual match-position sets of the tokens that matched it (an
in-range index token contributing the empty set), and every stored
highlight index is a valid character offset into the repository's display
name (`0 ≤ i < len(basename(path))`). -/
theorem target_highlights_union_bounded (st : MGitState) (hnd : st.repos.Nodup)
    (selector : String) (r : String) (s : Finset Nat)
    (hmem : (r, s) ∈ (getTargetReposS st selector).1) :
    s = unionFoldD ((pySplitComma selector).map (fun k => tokenContrib st.repos k r))
    ∧ ∀ i ∈ s, i < (basename r).length := by
  have hbound : ∀ s', s' = unionFoldD ((pySplitComma selector).map
      (fun k => tokenContrib st.repos k r)) → ∀ i ∈ s', i < (basename r).length := by
    intro s' hs' i hi
    rw [hs'] at hi
    refine unionFoldD_bound _ (fun n => n < (basename r).length) ?_ i hi
    intro x hx s'' hxs i' hi'
    obtain ⟨k, hk, hkx⟩ := List.mem_map.mp hx
    rw [← hkx] at hxs
    exact tokenContrib_bound st.repos k r s'' hxs i' hi'
  by_cases hsel : selector = ""
  · subst hsel
    have hmap : (getTargetReposS st "").1
        = st.repos.map (fun repo => (repo, (∅ : Finset Nat))) := rfl
    rw [hmap] at hmem
    obtain ⟨p, hp, heq⟩ := List.mem_map.mp hmem
    have hs : s = ∅ := by
      have h2 := congrArg Prod.snd heq
      simpa using h2.symm
    have hsplit : pySplitComma "" = [""] := by decide
    have htc : tokenContrib st.repos "" r = none := rfl
    have huf : s = unionFoldD ((pySplitComma "").map (fun k => tokenContrib st.repos k r)) := by
      rw [hsplit, hs]
      simp [unionFoldD_cons, htc, show unionFoldD [] = ∅ from rfl]
    exact ⟨huf, hbound s huf⟩
  · have hmapeq : (getTargetReposS st selector).1
        = ((pySplitComma selector).foldl processKey (([] : TargetMap), [], st)).1 := by
      unfold getTargetReposS
      rw [if_neg hsel]
    have hkn : keysNodup ((pySplitComma selector).foldl processKey
        (([] : TargetMap), [], st)).1 :=
      keysNodup_foldl_processKey _ _ (by unfold keysNodup; simp)
    rw [hmapeq] at hmem
    have hlk := lookupTM_eq_some_of_mem _ hkn r s hmem
    have hfold := foldl_processKey_lookup (pySplitComma selector)
      (([] : TargetMap), [], st) hnd r
    rw [hlk] at hfold
    rw [show lookupTM ([] : TargetMap) r = none from rfl] at hfold
    have hconv : (pySplitComma selector).foldl
        (fun o k => combineOpt o (tokenContrib st.repos k r)) none
        = ((pySplitComma selector).map (fun k => tokenContrib st.repos k r)).foldl
            combineOpt none := by
      rw [List.foldl_map]
    rw [hconv] at hfold
    have hs := foldl_combineOpt_none _ s hfold.symm
    exact ⟨hs, hbound s hs⟩

/-- Witness for C4: registry `["/r/ab"]`, selector `"a,b"` — both tokens
match the single repository, whose highlight set is the union `{0} ∪ {1}`,
and both indices are valid offsets into `"ab"`. -/
theorem target_highlights_union_bounded_witness :
    (({0, 1} : Finset Nat)
      = unionFoldD ((pySplitComma "a,b").map (fun k => tokenContrib ["/r/ab"] k "/r/ab")))
    ∧ ∀ i ∈ ({0, 1} : Finset Nat), i < (basename "/r/ab").length :=
  target_highlights_union_bounded ⟨["/r/ab"]⟩ (by decide) "a,b" "/r/ab" {0, 1} (by decide)

/-! ## Highlight rendering and the status aggregator
(`MGit._highlight_text`, `MGit._get_repo_status_summary`, `MGit.show_summary`) -/

/-- The color styling collaborator (`colorama` attributes used by the
source).  When the library is absent the source shims every attribute to
the empty string; `plainStyle` is that degraded plain-text mode. -/
structure Style where
  red : String
  green : String
  yellow : String
  cyan : String
  bright : String
  resetAll : String
deriving DecidableEq

/-- Plain-text mode: every styling string is empty. -/
def plainStyle : Style := ⟨"", "", "", "", "", ""⟩

/-- `MGit._highlight_text(text, indices, base_color)`: an empty (falsy)
index set returns the text unchanged; otherwise each character whose index
is in the set is wrapped in highlight markup and followed by a reset plus
the base color. -/
def highlightText (sty : Style) (text : String) (indices : Finset Nat)
    (baseColor : String) : String :=
  if indices = ∅ then text
  else
    let hlStyle := sty.yellow ++ sty.bright
    let resetStyle := sty.resetAll ++ baseColor
    String.join (text.toList.enum.map (fun ic =>
      if ic.1 ∈ indices then hlStyle ++ String.mk [ic.2] ++ resetStyle
      else String.mk [ic.2]))

/-- Result of one completed `subprocess.run` call. -/
structure ProcResult where
  returncode : Int
  stdout : String
  stderr : String
deriving DecidableEq

/-- The external process boundary: for a working directory and a git
argument vector, either a completed process result or a raised exception
(with its message). -/
def GitEnv : Type := String → List String → Except String ProcResult

/-- Python `int(s)` under the aggregator's `try`: a failed parse raises
`ValueError`. -/
def pyIntE (s : String) : Except String Int :=
  match pyInt s with
  | some v => Except.ok v
  | none => Except.error "ValueError"

/-- The body of the `try` block of `_get_repo_status_summary`, producing
`(branch, status_symbol, sync_state)`: porcelain status (dirty iff the
stripped output is non-empty), current branch, and — when the rev-list
count query exits 0 — the unpacked ahead/behind counts rendered as arrow
glyphs (unpacking or `int()` failure raises, a non-zero exit just leaves
the sync field empty). -/
def repoStatusE (sty : Style) (env : GitEnv) (repoPath : String) :
    Except String (String × String × String) := do
  let resStatus ← env repoPath ["status", "--porcelain"]
  let isDirty := !((pyStrip resStatus.stdout).isEmpty)
  let resBranch ← env repoPath ["rev-parse", "--abbrev-ref", "HEAD"]
  let branch := pyStrip resBranch.stdout
  let resAhead ← env repoPath
    ["rev-list", "--left-right", "--count", branch ++ "...origin/" ++ branch]
  let syncState ←
    if resAhead.returncode = 0 then
      match pySplitWs (pyStrip resAhead.stdout) with
      | [a, b] => do
        let ahead ← pyIntE a
        let behind ← pyIntE b
        pure ((if ahead > 0 then sty.green ++ "↑" ++ a ++ " " else "")
          ++ (if behind > 0 then sty.red ++ "↓" ++ b ++ " " else ""))
      | _ => Except.error "ValueError"
    else pure ""
  let statusSymbol := if isDirty then sty.red ++ "CHANGES" else sty.green ++ "CLEAN"
  pure (branch, statusSymbol, syncState)

/-- One table row: display name, branch, status, sync. -/
abbrev Row := String × String × String × String

/-- `MGit._get_repo_status_summary(repo_path, highlight_indices)`: the
display name is computed before the `try` block; any exception inside it
downgrades the row to `(display_name, "Unknown", ERROR, "")`. -/
def getRepoStatusSummary (sty : Style) (env : GitEnv) (repoPath : String)
    (hl : Finset Nat) : Row :=
  let displayName := highlightText sty (basename repoPath) hl ""
  match repoStatusE sty env repoPath with
  | Except.ok res => (displayName, res.1, res.2.1, res.2.2)
  | Except.error _ => (displayName, "Unknown", sty.red ++ "ERROR", "")

/-- One printed line or synchronisation step of `show_summary`, in program
order. -/
inductive SumEvent
  | warnEmpty
  | analyzing (n : Nat)
  | tableHeader
  | rule
  | poolCreate (maxWorkers : Nat)
  | joinWorker (i : Nat)
  | row (r : Row)
deriving DecidableEq

/-- Observable trace of `MGit.show_summary(targets_map)`: warn and return
when the map is empty; otherwise print the headers, create a pool of
`min(20, n)` workers, join every future in submission order
(`for f in futures: results.append(f.result())`), and only then print one
row per target in `targets_map` (dict insertion) order, closing with a
rule. -/
def showSummaryTrace (sty : Style) (env : GitEnv) (targetsMap : TargetMap) :
    List SumEvent :=
  if targetsMap = [] then [SumEvent.warnEmpty]
  else
    SumEvent.analyzing targetsMap.length :: SumEvent.tableHeader :: SumEvent.rule ::
    SumEvent.poolCreate (min 20 targetsMap.length) ::
    ((List.range targetsMap.length).map SumEvent.joinWorker
      ++ targetsMap.map (fun pr => SumEvent.row (getRepoStatusSummary sty env pr.1 pr.2))
      ++ [SumEvent.rule])

/-- Is this event a printed table row? -/
def isRowEvent : SumEvent → Bool
  | SumEvent.row _ => true
  | _ => false

/-- Is this event the join of a worker future? -/
def isJoinEvent : SumEvent → Bool
  | SumEvent.joinWorker _ => true
  | _ => false

/-- The rows printed by a trace, in print order. -/
def rowsOf (tr : List SumEvent) : List Row :=
  tr.filterMap (fun e => match e with | SumEvent.row r => some r | _ => none)

theorem filterMap_none {α β : Type} (f : α → Option β) (l : List α)
    (h : ∀ a, f a = none) : l.filterMap f = [] := by
  induction l with
  | nil => rfl
  | cons x xs ih => rw [List.filterMap_cons, h x, ih]

theorem filterMap_some_map {α β : Type} (f : α → β) (l : List α) :
    l.filterMap (fun a => some (f a)) = l.map f := by
  induction l with
  | nil => rfl
  | cons x xs ih => rw [List.filterMap_cons, List.map_cons]; exact congrArg _ ih

theorem rowsOf_showSummaryTrace (sty : Style) (env : GitEnv) (tm : TargetMap) :
    rowsOf (showSummaryTrace sty env tm)
      = tm.map (fun pr => getRepoStatusSummary sty env pr.1 pr.2) := by
  unfold showSummaryTrace rowsOf
  split
  · next h => rw [h]; rfl
  · rw [List.filterMap_cons, List.filterMap_cons, List.filterMap_cons, List.filterMap_cons]
    show List.filterMap _ ((List.range tm.length).map SumEvent.joinWorker
      ++ tm.map (fun pr => SumEvent.row (getRepoStatusSummary sty env pr.1 pr.2))
      ++ [SumEvent.rule]) = _
    rw [List.filterMap_append, List.filterMap_append]
    rw [List.filterMap_map, List.filterMap_map]
    rw [show List.filterMap
        ((fun e => match e with | SumEvent.row r => some r | _ => none) ∘ SumEvent.joinWorker)
        (List.range tm.length) = [] from filterMap_none _ _ (fun a => rfl)]
    rw [show List.filterMap
        ((fun e => match e with | SumEvent.row r => some r | _ => none)
          ∘ (fun pr : String × Finset Nat =>
              SumEvent.row (getRepoStatusSummary sty env pr.1 pr.2)))
        tm
      = List.filterMap (fun pr : String × Finset Nat =>
          some (getRepoStatusSummary sty env pr.1 pr.2)) tm from rfl]
    rw [show List.filterMap (fun e : SumEvent =>
        match e with | SumEvent.row r => some r | _ => none) [SumEvent.rule] = [] from rfl]
    rw [List.append_nil, List.nil_append]
    exact filterMap_some_map _ tm

/-- C5: if any exception is raised during one repository's status-summary
computation, that repository's row is exactly
`(display_name, "Unknown", ERROR, "")` — the display name was computed
before the `try` and keeps its highlight markup, the branch reads
`"Unknown"` — while every other repository's row is unaffected: each row
depends only on that repository's own entry and the environment's behaviour
at that repository, and the batch always yields one row per target. -/
theorem status_summary_error_row (sty : Style) (env : GitEnv) (p : String)
    (hl : Finset Nat) (e : String) (herr : repoStatusE sty env p = Except.error e) :
    getRepoStatusSummary sty env p hl
      = (highlightText sty (basename p) hl "", "Unknown", sty.red ++ "ERROR", "")
    ∧ (∀ tm : TargetMap,
        rowsOf (showSummaryTrace sty env tm)
          = tm.map (fun pr => getRepoStatusSummary sty env pr.1 pr.2))
    ∧ (∀ (env' : GitEnv) (q : String), (∀ args, env q args = env' q args) →
        ∀ hl' : Finset Nat,
          getRepoStatusSummary sty env q hl' = getRepoStatusSummary sty env' q hl') := by
  refine ⟨?_, rowsOf_showSummaryTrace sty env, ?_⟩
  · unfold getRepoStatusSummary
    rw [herr]
  · intro env' q hq hl'
    unfold getRepoStatusSummary repoStatusE
    simp only [hq]

/-- Environment in which every external call raises. -/
def demoFailEnv : GitEnv := fun _ _ => Except.error "boom"

/-- Witness for C5: with every call raising, the row for `/a/repo` is
`("repo", "Unknown", "ERROR", "")` in plain-text mode. -/
theorem status_summary_error_row_witness :
    getRepoStatusSummary plainStyle demoFailEnv "/a/repo" ∅
      = (highlightText plainStyle (basename "/a/repo") ∅ "", "Unknown",
          plainStyle.red ++ "ERROR", "")
    ∧ getRepoStatusSummary plainStyle demoFailEnv "/a/repo" ∅
      = ("repo", "Unknown", "ERROR", "") :=
  have h := status_summary_error_row plainStyle demoFailEnv "/a/repo" ∅ "boom" rfl
  ⟨h.1, by rw [h.1]; decide⟩

/-! ### Row order of `show_summary` (claim C3) -/

/-- Environment in which every external call completes cleanly with exit
code 0 and empty output. -/
def demoOkEnv : GitEnv := fun _ _ => Except.ok ⟨0, "", ""⟩

/-- Counterexample to C3's ordering part: with registry
`["/r/a", "/r/b"]` and selector `"1,0"` the target map is built in token
order `[/r/b, /r/a]`, and `show_summary` prints its rows in that dict
insertion order — not in registry iteration order `[/r/a, /r/b]`. -/
theorem summary_rows_not_registry_order_cex :
    rowsOf (showSummaryTrace plainStyle demoOkEnv
        (getTargetReposS ⟨["/r/a", "/r/b"]⟩ "1,0").1)
      ≠ ["/r/a", "/r/b"].map
          (fun rp => getRepoStatusSummary plainStyle demoOkEnv rp ∅) := by
  decide

/-- C3 amended: `show_summary` joins every worker future before printing
any table row (all join events precede all row events in the trace), and
the rows are printed in `targets_map`'s dict insertion order — independent
of worker completion order, since each future's result is deterministic —
but not in registry iteration order in general: selector tokens are
processed left to right, so the insertion order (e.g. from selector
`"1,0"`) can differ from registry order. -/
theorem summary_joins_before_rows_insertion_order (sty : Style) (env : GitEnv)
    (tm : TargetMap) (hne : tm ≠ []) :
    rowsOf (showSummaryTrace sty env tm)
      = tm.map (fun pr => getRepoStatusSummary sty env pr.1 pr.2)
    ∧ ∃ pre post, showSummaryTrace sty env tm = pre ++ post
        ∧ (∀ e ∈ pre, isRowEvent e = false)
        ∧ (∀ e ∈ post, isJoinEvent e = false)
        ∧ (pre.filter isJoinEvent).length = tm.length := by
  refine ⟨rowsOf_showSummaryTrace sty env tm, ?_⟩
  refine ⟨[SumEvent.analyzing tm.length, SumEvent.tableHeader, SumEvent.rule,
      SumEvent.poolCreate (min 20 tm.length)]
      ++ (List.range tm.length).map SumEvent.joinWorker,
    tm.map (fun pr => SumEvent.row (getRepoStatusSummary sty env pr.1 pr.2))
      ++ [SumEvent.rule], ?_, ?_, ?_, ?_⟩
  · unfold showSummaryTrace
    rw [if_neg hne]
    simp [List.append_assoc]
  · intro e he
    rcases List.mem_append.mp he with h | h
    · simp only [List.mem_cons, List.mem_singleton, List.not_mem_nil, or_false] at h
      rcases h with rfl | rfl | rfl | rfl
      all_goals rfl
    · obtain ⟨i, _, rfl⟩ := List.mem_map.mp h
      rfl
  · intro e he
    rcases List.mem_append.mp he with h | h
    · obtain ⟨pr, _, rfl⟩ := List.mem_map.mp h
      rfl
    · rw [List.mem_singleton] at h
      subst h
      rfl
  · rw [List.filter_append]
    rw [show List.filter isJoinEvent
        [SumEvent.analyzing tm.length, SumEvent.tableHeader, SumEvent.rule,
         SumEvent.poolCreate (min 20 tm.length)] = [] from rfl]
    rw [List.nil_append,
      List.filter_eq_self.mpr (fun e he => by
        obtain ⟨i, _, rfl⟩ := List.mem_map.mp he
        rfl)]
    rw [List.length_map, List.length_range]

/-- Witness for the amended C3 on a one-repository target map. -/
theorem summary_joins_before_rows_insertion_order_witness :
    rowsOf (showSummaryTrace plainStyle demoOkEnv [("/r/a", (∅ : Finset Nat))])
      = [("/r/a", (∅ : Finset Nat))].map
          (fun pr => getRepoStatusSummary plainStyle demoOkEnv pr.1 pr.2)
    ∧ ∃ pre post,
        showSummaryTrace plainStyle demoOkEnv [("/r/a", (∅ : Finset Nat))] = pre ++ post
        ∧ (∀ e ∈ pre, isRowEvent e = false)
        ∧ (∀ e ∈ post, isJoinEvent e = false)
        ∧ (pre.filter isJoinEvent).length = [("/r/a", (∅ : Finset Nat))].length :=
  summary_joins_before_rows_insertion_order plainStyle demoOkEnv
    [("/r/a", (∅ : Finset Nat))] (by decide)

/-! ## The concurrent dispatcher's observable startup (`MGit.run_concurrent`) -/

/-- A command to dispatch: a git argument vector (invoked non-shell,
prefixed with the color directives) or a pre-joined shell string (`exec`).
The two are mutually exclusive, selected by `is_shell` in the source. -/
inductive CommandSpec
  | argv (args : List String)
  | shell (cmd : String)
deriving DecidableEq

/-- One observable step of `run_concurrent`. -/
inductive RunEvent
  | warnEmpty
  | announce (n : Nat)
  | poolCreate (maxWorkers : Nat)
  | submit (path : String) (cmd : CommandSpec) (hl : Finset Nat)
deriving DecidableEq

/-- Observable startup trace of
`MGit.run_concurrent(args, is_shell, targets_map)`: with an empty target
map it prints the warning line and returns before creating the executor;
otherwise it announces, creates a pool of `min(10, n)` workers and submits
one `_run_single_repo` task per target with that target's highlight set. -/
def runConcurrentTrace (cmd : CommandSpec) (targetsMap : TargetMap) : List RunEvent :=
  if targetsMap = [] then [RunEvent.warnEmpty]
  else
    RunEvent.announce targetsMap.length ::
    RunEvent.poolCreate (min 10 targetsMap.length) ::
    targetsMap.map (fun pr => RunEvent.submit pr.1 cmd pr.2)

/-- C10: with an empty target set, both the dispatcher and the status
aggregator print exactly one warning line and return: no pool-creation
event, no submitted worker (hence no external command and no output
block), and no table row appear in either trace. -/
theorem empty_targets_warn_only (sty : Style) (env : GitEnv) (cmd : CommandSpec) :
    runConcurrentTrace cmd [] = [RunEvent.warnEmpty]
    ∧ showSummaryTrace sty env [] = [SumEvent.warnEmpty]
    ∧ rowsOf (showSummaryTrace sty env []) = [] :=
  ⟨rfl, rfl, rfl⟩

/-! ## Lock-protected block printing (`MGit._run_single_repo`, claim C7)

Each dispatcher worker computes, then acquires the single process-wide
`print_lock`, prints its whole block line by line, and releases the lock
(`with print_lock:` releases on every exit path; the exception handlers
print their single error line under the lock too).  We model one dispatch
call as an interleaving semantics: worker `w`'s program is
`acq :: (its block lines as prints) ++ [rel]`; a scheduler may run any
enabled worker's next action; `acq` requires the lock to be free; `prt`
appends a line tagged with its worker to the shared output and — crucially —
is NOT itself guarded by the semantics, so mutual exclusion of the printed
blocks must come from the program structure and the lock protocol. -/

/-- Worker outcome for one repository: the external call completed with a
result, raised `FileNotFoundError` (missing working directory), or raised
some other exception. -/
inductive RunOutcome
  | completed (res : ProcResult)
  | fileNotFound
  | exn (msg : String)
deriving DecidableEq

/-- The lines one `_run_single_repo` worker prints while holding the output
lock: on an ordinary completion, the `┌──` header (highlighted display name
plus path), the body (exit 0: stripped stdout then stderr when non-empty,
or the completion marker when both are empty; non-zero exit: the failure
marker, then stdout and stderr) and the `└──` footer rule; on
`FileNotFoundError` or any other exception, the corresponding single error
line. -/
def blockLines (sty : Style) (repoPath : String) (hl : Finset Nat) (oc : RunOutcome) :
    List String :=
  match oc with
  | RunOutcome.completed res =>
    let repoName := basename repoPath
    let output := pyStrip res.stdout
    let error := pyStrip res.stderr
    let displayName := highlightText sty repoName hl sty.cyan
    let headerStr := "[" ++ displayName ++ "]"
    (sty.cyan ++ sty.bright ++ "┌── " ++ headerStr ++ " " ++ sty.resetAll ++ sty.cyan
        ++ "in " ++ repoPath) ::
    ((if res.returncode = 0 then
        (if output ≠ "" then [output] else [])
        ++ (if error ≠ "" then [error] else [])
        ++ (if output = "" ∧ error = "" then [sty.green ++ "√ 完成 (无输出)"] else [])
      else
        [sty.red ++ "× 失败 (Code: " ++ toString res.returncode ++ ")"]
        ++ (if output ≠ "" then [output] else [])
        ++ (if error ≠ "" then [sty.red ++ error] else []))
      ++ [sty.cyan ++ "└──────────────────────────────"])
  | RunOutcome.fileNotFound => [sty.red ++ "错误: 路径不存在 " ++ repoPath]
  | RunOutcome.exn msg => [sty.red ++ "执行出错 [" ++ basename repoPath ++ "]: " ++ msg]

/-- An atomic action of one worker: acquire the shared lock, print one
line, release the lock. -/
inductive LAct
  | acq
  | prt (s : String)
  | rel
deriving DecidableEq

/-- The program of one worker: compute (no output), then
`with print_lock:` — acquire, print every line of the block, release. -/
def workerProg (lines : List String) : List LAct :=
  LAct.acq :: lines.map LAct.prt ++ [LAct.rel]

/-- Global state of one dispatch call: the holder of the output lock, the
remaining program of every worker, and the output printed so far (each line
tagged with the worker that printed it). -/
structure DState (n : Nat) where
  lock : Option (Fin n)
  prog : Fin n → List LAct
  out : List (Fin n × String)

/-- One interleaving step: any worker may run its next action.  `acq`
requires the lock to be free and takes it; `prt` appends one line to the
shared output with no guard of its own; `rel` frees the lock. -/
inductive DStep {n : Nat} : DState n → DState n → Prop
  | acq {s : DState n} (w : Fin n) (rest : List LAct) :
      s.lock = none → s.prog w = LAct.acq :: rest →
      DStep s ⟨some w, Function.update s.prog w rest, s.out⟩
  | prt {s : DState n} (w : Fin n) (str : String) (rest : List LAct) :
      s.prog w = LAct.prt str :: rest →
      DStep s ⟨s.lock, Function.update s.prog w rest, s.out ++ [(w, str)]⟩
  | rel {s : DState n} (w : Fin n) (rest : List LAct) :
      s.prog w = LAct.rel :: rest →
      DStep s ⟨none, Function.update s.prog w rest, s.out⟩

/-- Initial state of a dispatch: lock free, every worker about to run its
full program, nothing printed. -/
def DInit {n : Nat} (lines : Fin n → List String) : DState n :=
  ⟨none, fun w => workerProg (lines w), []⟩

/-- The complete tagged block of worker `w`. -/
def blockOut {n : Nat} (lines : Fin n → List String) (w : Fin n) :
    List (Fin n × String) :=
  (lines w).map (fun str => (w, str))

/-- Reachability invariant: some set `done` of workers have printed their
complete blocks, in some order, and either the lock is free and everyone
else has not started printing, or one worker holds the lock and has printed
exactly a prefix of its own block after all the finished blocks. -/
def DInv {n : Nat} (lines : Fin n → List String) (s : DState n) : Prop :=
  ∃ done : List (Fin n),
    done.Nodup
    ∧ (∀ w ∈ done, s.prog w = [])
    ∧ match s.lock with
      | none =>
        s.out = (done.map (blockOut lines)).flatten
        ∧ ∀ w, w ∉ done → s.prog w = workerProg (lines w)
      | some h =>
        h ∉ done
        ∧ ∃ k, k ≤ (lines h).length
            ∧ s.prog h = ((lines h).drop k).map LAct.prt ++ [LAct.rel]
            ∧ s.out = (done.map (blockOut lines)).flatten
                ++ ((lines h).take k).map (fun str => (h, str))
            ∧ ∀ w, w ∉ done → w ≠ h → s.prog w = workerProg (lines w)

theorem DInv_init {n : Nat} (lines : Fin n → List String) :
    DInv lines (DInit lines) := by
  refine ⟨[], by simp, by simp, ?_, ?_⟩
  · rfl
  · intro w _
    rfl

theorem DInv_step {n : Nat} (lines : Fin n → List String) {s s' : DState n}
    (hinv : DInv lines s) (hstep : DStep s s') : DInv lines s' := by
  obtain ⟨done, hnd, hdone, hrest⟩ := hinv
  cases hstep with
  | acq w rest hlock hprog =>
    rw [hlock] at hrest
    obtain ⟨hout, hfresh⟩ := hrest
    have hw : w ∉ done := by
      intro hc
      rw [hdone w hc] at hprog
      exact absurd hprog (by simp)
    have hrest' : rest = (lines w).map LAct.prt ++ [LAct.rel] := by
      have hp := hprog
      rw [hfresh w hw] at hp
      unfold workerProg at hp
      injection hp with _ h2
      exact h2.symm
    refine ⟨done, hnd, ?_, hw, 0, Nat.zero_le _, ?_, ?_, ?_⟩
    · intro v hv
      have hvw : v ≠ w := by
        intro hc
        rw [hc] at hv
        exact hw hv
      show Function.update s.prog w rest v = []
      rw [Function.update_noteq hvw]
      exact hdone v hv
    · show Function.update s.prog w rest w = ((lines w).drop 0).map LAct.prt ++ [LAct.rel]
      rw [Function.update_same, hrest', List.drop_zero]
    · show s.out = (done.map (blockOut lines)).flatten
        ++ ((lines w).take 0).map (fun str => (w, str))
      rw [hout]
      simp
    · intro v hv hvw
      show Function.update s.prog w rest v = workerProg (lines v)
      rw [Function.update_noteq hvw]
      exact hfresh v hv
  | prt w str rest hprog =>
    cases hl : s.lock with
    | none =>
      exfalso
      rw [hl] at hrest
      obtain ⟨hout, hfresh⟩ := hrest
      by_cases hw : w ∈ done
      · rw [hdone w hw] at hprog
        exact absurd hprog (by simp)
      · rw [hfresh w hw] at hprog
        unfold workerProg at hprog
        exact absurd hprog (by simp)
    | some hld =>
      rw [hl] at hrest
      obtain ⟨hh, k, hk, hproh, houth, hothers⟩ := hrest
      have hwh : hld = w := by
        by_contra hne
        have hne' : w ≠ hld := fun hc => hne hc.symm
        by_cases hw : w ∈ done
        · rw [hdone w hw] at hprog
          exact absurd hprog (by simp)
        · rw [hothers w hw hne'] at hprog
          unfold workerProg at hprog
          exact absurd hprog (by simp)
      subst hwh
      have hklt : k < (lines hld).length := by
        by_contra hge
        rw [List.drop_eq_nil_of_le (by omega)] at hproh
        rw [hproh] at hprog
        exact absurd hprog (by simp)
      have hdk : (lines hld).drop k = (lines hld)[k] :: (lines hld).drop (k + 1) :=
        List.drop_eq_getElem_cons hklt
      rw [hdk, List.map_cons, List.cons_append] at hproh
      rw [hproh] at hprog
      have hstr : str = (lines hld)[k] := by
        injection hprog with h1 _
        injection h1 with h2
        exact h2.symm
      have hrest2 : rest = ((lines hld).drop (k + 1)).map LAct.prt ++ [LAct.rel] := by
        injection hprog with _ h2
        exact h2.symm
      refine ⟨done, hnd, ?_, hh, k + 1, hklt, ?_, ?_, ?_⟩
      · intro v hv
        have hvw : v ≠ hld := by
          intro hc
          rw [hc] at hv
          exact hh hv
        show Function.update s.prog hld rest v = []
        rw [Function.update_noteq hvw]
        exact hdone v hv
      · show Function.update s.prog hld rest hld
          = ((lines hld).drop (k + 1)).map LAct.prt ++ [LAct.rel]
        rw [Function.update_same]
        exact hrest2
      · show s.out ++ [(hld, str)] = (done.map (blockOut lines)).flatten
          ++ ((lines hld).take (k + 1)).map (fun str => (hld, str))
        rw [houth, hstr, ← List.take_concat_get (lines hld) k hklt,
          List.concat_eq_append, List.map_append, List.append_assoc]
        rfl
      · intro v hv hvw
        show Function.update s.prog hld rest v = workerProg (lines v)
        rw [Function.update_noteq hvw]
        exact hothers v hv hvw
  | rel w rest hprog =>
    cases hl : s.lock with
    | none =>
      exfalso
      rw [hl] at hrest
      obtain ⟨hout, hfresh⟩ := hrest
      by_cases hw : w ∈ done
      · rw [hdone w hw] at hprog
        exact absurd hprog (by simp)
      · rw [hfresh w hw] at hprog
        unfold workerProg at hprog
        exact absurd hprog (by simp)
    | some hld =>
      rw [hl] at hrest
      obtain ⟨hh, k, hk, hproh, houth, hothers⟩ := hrest
      have hwh : hld = w := by
        by_contra hne
        have hne' : w ≠ hld := fun hc => hne hc.symm
        by_cases hw : w ∈ done
        · rw [hdone w hw] at hprog
          exact absurd hprog (by simp)
        · rw [hothers w hw hne'] at hprog
          unfold workerProg at hprog
          exact absurd hprog (by simp)
      subst hwh
      have hdrop : (lines hld).drop k = [] := by
        cases hcase : (lines hld).drop k with
        | nil => rfl
        | cons x xs =>
          rw [hcase, List.map_cons, List.cons_append] at hproh
          rw [hproh] at hprog
          exact absurd hprog (by simp)
      have hkeq : k = (lines hld).length := by
        have hlen := congrArg List.length hdrop
        rw [List.length_drop] at hlen
        simp at hlen
        omega
      have hrest0 : rest = [] := by
        rw [hdrop] at hproh
        rw [hproh] at hprog
        simp only [List.map_nil, List.nil_append] at hprog
        injection hprog with _ h2
        exact h2.symm
      refine ⟨done ++ [hld], ?_, ?_, ?_, ?_⟩
      · rw [List.nodup_append]
        refine ⟨hnd, by simp, ?_⟩
        intro a ha hb
        rw [List.mem_singleton] at hb
        subst hb
        exact hh ha
      · intro v hv
        rcases List.mem_append.mp hv with h | h
        · have hvw : v ≠ hld := by
            intro hc
            rw [hc] at h
            exact hh h
          show Function.update s.prog hld rest v = []
          rw [Function.update_noteq hvw]
          exact hdone v h
        · rw [List.mem_singleton] at h
          subst h
          show Function.update s.prog v rest v = []
          rw [Function.update_same]
          exact hrest0
      · show s.out = ((done ++ [hld]).map (blockOut lines)).flatten
        rw [houth, hkeq, List.take_length, List.map_append, List.flatten_append]
        simp [blockOut]
      · intro v hv
        have hv1 : v ∉ done := fun hc => hv (List.mem_append.mpr (Or.inl hc))
        have hv2 : v ≠ hld := fun hc => hv (List.mem_append.mpr (Or.inr (by simp [hc])))
        show Function.update s.prog hld rest v = workerProg (lines v)
        rw [Function.update_noteq hv2]
        exact hothers v hv1 hv2

theorem DInv_steps {n : Nat} (lines : Fin n → List String) {s s' : DState n}
    (h : Relation.ReflTransGen DStep s s') (hinv : DInv lines s) : DInv lines s' := by
  induction h with
  | refl => exact hinv
  | tail _ hbc ih => exact DInv_step lines ih hbc

theorem dispatch_serializes {n : Nat} (lines : Fin n → List String) (s : DState n)
    (hrun : Relation.ReflTransGen DStep (DInit lines) s)
    (hfin : ∀ w, s.prog w = []) :
    ∃ order : List (Fin n), order.Nodup ∧ (∀ w, w ∈ order) ∧ order.length = n
      ∧ s.out = (order.map (blockOut lines)).flatten := by
  have hinv := DInv_steps lines hrun (DInv_init lines)
  obtain ⟨done, hnd, hdone, hrest⟩ := hinv
  cases hl : s.lock with
  | some h =>
    exfalso
    rw [hl] at hrest
    obtain ⟨_, k, _, hproh, _, _⟩ := hrest
    rw [hfin h] at hproh
    exact absurd hproh.symm (by simp)
  | none =>
    rw [hl] at hrest
    obtain ⟨hout, hfresh⟩ := hrest
    have hall : ∀ w, w ∈ done := by
      intro w
      by_contra hw
      have hfr := hfresh w hw
      rw [hfin w] at hfr
      exact absurd hfr.symm (by simp [workerProg])
    have hperm : done.Perm (List.finRange n) :=
      List.Subperm.antisymm
        (List.subperm_of_subset hnd (fun a _ => List.mem_finRange a))
        (List.subperm_of_subset (List.nodup_finRange n) (fun a _ => hall a))
    refine ⟨done, hnd, hall, ?_, hout⟩
    rw [hperm.length_eq, List.length_finRange]

/-- The block-line sequences of one dispatch call over target map `tm`, one
per submitted worker: worker `w` runs `_run_single_repo` on the `w`-th
entry of `tm` with that entry's highlight set. -/
def dispatchLines (sty : Style) (tm : TargetMap) (outcome : Fin tm.length → RunOutcome)
    (w : Fin tm.length) : List String :=
  blockLines sty (tm.get w).1 (tm.get w).2 (outcome w)

/-- C7: in any complete interleaved execution of one dispatch over the `N`
targets of `tm`, the printed output is the concatenation of exactly `N`
complete per-repository blocks — one per target, each block contiguous, in
some permutation order — because each worker prints its entire block
(including the error-path messages) while holding the single shared output
lock, which its program releases on every exit path. -/
theorem dispatch_output_blocks (sty : Style) (tm : TargetMap)
    (outcome : Fin tm.length → RunOutcome) (s : DState tm.length)
    (hrun : Relation.ReflTransGen DStep (DInit (dispatchLines sty tm outcome)) s)
    (hfin : ∀ w, s.prog w = []) :
    ∃ order : List (Fin tm.length), order.Nodup ∧ (∀ w, w ∈ order)
      ∧ order.length = tm.length
      ∧ s.out = (order.map (blockOut (dispatchLines sty tm outcome))).flatten :=
  dispatch_serializes (dispatchLines sty tm outcome) s hrun hfin

/-! ### A concrete complete execution for the witness -/

/-- One-repository target map for the concrete execution. -/
def demoTm : TargetMap := [("/a/r", ∅)]

/-- The single worker's external call raises `FileNotFoundError`. -/
def demoOutcome : Fin demoTm.length → RunOutcome := fun _ => RunOutcome.fileNotFound

/-- Block lines of the single demo worker. -/
def demoLines : Fin demoTm.length → List String := dispatchLines plainStyle demoTm demoOutcome

/-- The line the demo worker prints (plain-text error path). -/
def demoErrLine : String := "错误: 路径不存在 /a/r"

/-- The final state of the demo execution: lock free, both programs... the
program exhausted, and exactly the one-line block printed. -/
def demoFinal : DState demoTm.length :=
  ⟨none,
   Function.update
     (Function.update
       (Function.update (fun w => workerProg (demoLines w)) ⟨0, by decide⟩
         ((demoLines ⟨0, by decide⟩).map LAct.prt ++ [LAct.rel]))
       ⟨0, by decide⟩ [LAct.rel])
     ⟨0, by decide⟩ [],
   ([] : List (Fin demoTm.length × String)) ++ [(⟨0, by decide⟩, demoErrLine)]⟩

theorem demoChain : Relation.ReflTransGen DStep (DInit demoLines) demoFinal := by
  refine Relation.ReflTransGen.head
    (DStep.acq ⟨0, by decide⟩ ((demoLines ⟨0, by decide⟩).map LAct.prt ++ [LAct.rel])
      rfl rfl) ?_
  refine Relation.ReflTransGen.head
    (DStep.prt ⟨0, by decide⟩ demoErrLine [LAct.rel] (by decide)) ?_
  refine Relation.ReflTransGen.head
    (DStep.rel ⟨0, by decide⟩ [] (by decide)) ?_
  exact Relation.ReflTransGen.refl

/-- Witness for C7: the one-worker execution `acq; prt; rel` reaches the
final state, and the theorem yields the single complete block as the whole
output. -/
theorem dispatch_output_blocks_witness :
    ∃ order : List (Fin demoTm.length), order.Nodup ∧ (∀ w, w ∈ order)
      ∧ order.length = demoTm.length
      ∧ demoFinal.out
          = (order.map (blockOut (dispatchLines plainStyle demoTm demoOutcome))).flatten :=
  dispatch_output_blocks plainStyle demoTm demoOutcome demoFinal demoChain (by decide)

end MGitVerify
